import Mathlib

/-!
# Verification of SniperOnSolana core logic

A shallow embedding, in Lean 4, of the pure logic of the SniperOnSolana
trading bot, together with theorems settling the specification claims.

Conventions used throughout:
* TypeScript `number` values that the code treats as exact quantities
  (lamports, SOL amounts, scores, percentages) are embedded as rationals `ℚ`
  (or integers where the code only ever produces integers); `BigInt`
  arithmetic on nonnegative values is embedded as `ℕ` with truncating
  division, which agrees with `BigInt` division on nonnegative operands.
* `Math.round` is `round : ℚ → ℤ` (Mathlib's `round x = ⌊x + 1/2⌋` matches
  JavaScript's round-half-toward-positive-infinity), and `Math.floor` is
  `Int.floor`.
* JavaScript `Map` and `Set` iterate in insertion order, so they are embedded
  as lists ordered by insertion, with the corresponding key semantics.
* Wall-clock time (`Date.now()`) is passed explicitly as an integer parameter
  where it matters; fields of the source records that no claim depends on
  (log strings, tx hashes, timestamps) are elided from the record embeddings.
-/

namespace Scorer

/-- One risk factor, from `src/config/types.ts` as used by
`src/security/scorer.ts` (`details` is `none` when absent or empty). -/
structure RiskFactor where
  name : String
  score : ℚ
  maxScore : ℚ
  passed : Bool
  details : Option String
deriving Repr, DecidableEq

/-- Result record of `calculateRiskScore` (the `timestamp` field is elided). -/
structure RiskAnalysis where
  score : ℤ
  passed : Bool
  factors : List RiskFactor
  warnings : List String
deriving Repr

/-- The critical-failure predicate inside `calculateRiskScore`
(`src/security/scorer.ts`, lines 36-42). -/
def isCriticalFailure (f : RiskFactor) : Bool :=
  !f.passed && (f.name == "honeypot" || f.name == "mint_authority" ||
    (f.name == "holder_distribution" && decide (f.score < -10)))

/-- Embedding of `calculateRiskScore` (`src/security/scorer.ts`, lines 6-51). -/
def calculateRiskScore (factors : List RiskFactor) : RiskAnalysis :=
  let totalScore : ℚ := (factors.map RiskFactor.score).sum
  let maxPossibleScore : ℚ := (factors.map RiskFactor.maxScore).sum
  let warnings : List String :=
    (factors.filter (fun f => !f.passed)).filterMap
      (fun f => f.details.map (fun d => f.name ++ ": " ++ d))
  let normalizedScore : ℤ :=
    max 0 (min 100 (round (totalScore / max maxPossibleScore 1 * 100)))
  let hasCriticalFailure : Bool := factors.any isCriticalFailure
  { score := normalizedScore
    passed := !hasCriticalFailure && decide (50 ≤ normalizedScore)
    factors := factors
    warnings := warnings }

/-- The normalized score as the specification words it:
`round(100 · sum(score) / max(sum(max_score), 1))` clamped to `[0, 100]`. -/
def specNormalizedScore (factors : List RiskFactor) : ℤ :=
  max 0 (min 100
    (round ((100 * (factors.map RiskFactor.score).sum) /
      max (factors.map RiskFactor.maxScore).sum 1)))

end Scorer

namespace Tip

/-- The slice of `JitoConfig` that tip calculation reads. -/
structure JitoConfig where
  tipLamports : ℚ
  tipPercent : ℚ
  maxTipLamports : ℚ
deriving Repr

/-- Tip strategies of `src/.../tip manager` (`TipStrategy`). -/
inductive TipStrategy
  | fixed
  | dynamic
  | competitive
deriving Repr, DecidableEq

/-- Result of a tip calculation (the `reason` string is elided). -/
structure TipCalculation where
  tipLamports : ℚ
  strategy : TipStrategy
deriving Repr

/-- Embedding of `TipManager.calculateFixedTip`. -/
def calculateFixedTip (cfg : JitoConfig) : TipCalculation :=
  { tipLamports := cfg.tipLamports, strategy := .fixed }

/-- Embedding of `TipManager.calculateDynamicTip` (`src/unnamed/part_006`,
lines 75-94): fall back to fixed on nonpositive profit, otherwise
`max(min, min(floor(profit · percent/100), max))`. -/
def calculateDynamicTip (cfg : JitoConfig) (expectedProfitLamports : ℚ) :
    TipCalculation :=
  if expectedProfitLamports ≤ 0 then calculateFixedTip cfg
  else
    let percentTip : ℚ := ((⌊expectedProfitLamports * (cfg.tipPercent / 100)⌋ : ℤ) : ℚ)
    { tipLamports := max cfg.tipLamports (min percentTip cfg.maxTipLamports)
      strategy := .dynamic }

/-- Clamp as the specification words it: lower bound `lo`, upper bound `hi`. -/
def clampSpec (x lo hi : ℚ) : ℚ := max lo (min x hi)

end Tip

/-- **C1.** For every list of risk factors, `calculateRiskScore` returns an
analysis whose score equals `round(100 · sum(score) / max(sum(maxScore), 1))`
clamped to `[0, 100]`, and whose `passed` flag is true iff no factor named
`honeypot` or `mint_authority` failed, no factor named `holder_distribution`
failed with score < −10, and the normalized score is at least 50. -/
theorem calculateRiskScore_meets_spec (factors : List Scorer.RiskFactor) :
    (Scorer.calculateRiskScore factors).score = Scorer.specNormalizedScore factors ∧
    0 ≤ (Scorer.calculateRiskScore factors).score ∧
    (Scorer.calculateRiskScore factors).score ≤ 100 ∧
    ((Scorer.calculateRiskScore factors).passed = true ↔
      ((∀ f ∈ factors,
          ¬(f.passed = false ∧ (f.name = "honeypot" ∨ f.name = "mint_authority")) ∧
          ¬(f.passed = false ∧ f.name = "holder_distribution" ∧ f.score < -10)) ∧
        50 ≤ Scorer.specNormalizedScore factors)) := by
  have hscore : (Scorer.calculateRiskScore factors).score =
      Scorer.specNormalizedScore factors := by
    simp only [Scorer.calculateRiskScore, Scorer.specNormalizedScore]
    congr 2
    congr 1
    ring
  refine ⟨hscore, ?_, ?_, ?_⟩
  · simp only [Scorer.calculateRiskScore]
    omega
  · simp only [Scorer.calculateRiskScore]
    omega
  · rw [show (Scorer.calculateRiskScore factors).passed =
        (!(factors.any Scorer.isCriticalFailure) &&
          decide (50 ≤ (Scorer.calculateRiskScore factors).score)) from rfl, hscore]
    have hfact : ∀ f : Scorer.RiskFactor, Scorer.isCriticalFailure f = false ↔
        (¬(f.passed = false ∧ (f.name = "honeypot" ∨ f.name = "mint_authority")) ∧
         ¬(f.passed = false ∧ f.name = "holder_distribution" ∧ f.score < -10)) := by
      intro f
      cases hpass : f.passed <;> simp [Scorer.isCriticalFailure, hpass]
    simp only [Bool.and_eq_true, Bool.not_eq_true', List.any_eq_false,
      decide_eq_true_eq]
    constructor
    · rintro ⟨hcrit, hsc⟩
      exact ⟨fun f hf => (hfact f).mp (Bool.not_eq_true _ ▸ hcrit f hf), hsc⟩
    · rintro ⟨hcrit, hsc⟩
      exact ⟨fun f hf => Bool.not_eq_true _ ▸ (hfact f).mpr (hcrit f hf), hsc⟩

/-- **C8.** The dynamic tip strategy returns the fixed tip when the expected
profit is nonpositive, and otherwise `floor(p · tip_percent / 100)` clamped
between `tip_lamports` (lower bound) and `max_tip_lamports` (upper bound). -/
theorem calculateDynamicTip_meets_spec (cfg : Tip.JitoConfig) (p : ℚ) :
    (Tip.calculateDynamicTip cfg p).tipLamports =
      if p ≤ 0 then cfg.tipLamports
      else Tip.clampSpec ((⌊p * cfg.tipPercent / 100⌋ : ℤ) : ℚ)
        cfg.tipLamports cfg.maxTipLamports := by
  by_cases hp : p ≤ 0
  · simp [Tip.calculateDynamicTip, Tip.calculateFixedTip, hp]
  · simp only [Tip.calculateDynamicTip, Tip.calculateFixedTip, hp, if_false,
      Tip.clampSpec]
    rw [mul_div_assoc]

namespace PositionMgr

/-- The slice of `Config.trading` that `PositionManager` reads. -/
structure TradingConfig where
  maxConcurrentPositions : ℕ
  maxPositionSizeSol : ℚ
deriving Repr, DecidableEq

/-- Position lifecycle status (`'open' | 'closing' | 'closed'`). -/
inductive PositionStatus
  | «open»
  | closing
  | closed
deriving Repr, DecidableEq

/-- A tracked position (`src/config/types.ts` `Position`); mints and ids are
abstract tokens, and the price/PnL fields no claim depends on are elided. -/
structure Position where
  id : ℕ
  mint : ℕ
  solSpent : ℚ
  status : PositionStatus
deriving Repr, DecidableEq

/-- The `p.status === 'open'` test. -/
def isOpen (p : Position) : Bool := p.status == .«open»

/-- Embedding of `PositionManager.getOpenPositions` (the `Map` iterates in
insertion order, so the state is the list of positions in insertion order). -/
def getOpenPositions (st : List Position) : List Position := st.filter isOpen

/-- `openPositions.reduce((sum, p) => sum + p.solSpent, 0)`. -/
def sumSol (l : List Position) : ℚ := (l.map Position.solSpent).sum

/-- The freshly constructed position record of `openPosition` (status `open`). -/
def newOpenPosition (id mint : ℕ) (solSpent : ℚ) : Position :=
  { id := id, mint := mint, solSpent := solSpent, status := PositionStatus.«open» }

/-- Embedding of `PositionManager.openPosition` (`src/unnamed/part_007`,
lines 411-467): throws when the open-position count is already at the cap or
when the summed open SOL plus the new spend would exceed the size cap,
otherwise appends a new position with status `open`. -/
def openPosition (cfg : TradingConfig) (st : List Position)
    (id mint : ℕ) (solSpent : ℚ) : Except String (List Position) :=
  let opens := getOpenPositions st
  if cfg.maxConcurrentPositions ≤ opens.length then
    Except.error "Maximum concurrent positions reached"
  else if cfg.maxPositionSizeSol < sumSol opens + solSpent then
    Except.error "Would exceed maximum position size"
  else
    Except.ok (st ++ [newOpenPosition id mint solSpent])

/-- Embedding of `PositionManager.closePosition` (`src/unnamed/part_007`,
lines 472-503): sets the matching position's status to `closed` (a missing id
leaves the map unchanged). -/
def closePosition (st : List Position) (positionId : ℕ) : List Position :=
  st.map fun p =>
    if p.id = positionId then { p with status := PositionStatus.closed } else p

/-- One call on the position manager. -/
inductive Op
  | openP (id mint : ℕ) (solSpent : ℚ)
  | closeP (positionId : ℕ)
deriving Repr

/-- Apply one call; a thrown `openPosition` leaves the map unchanged. -/
def applyOp (cfg : TradingConfig) (st : List Position) : Op → List Position
  | .openP id mint sol =>
    match openPosition cfg st id mint sol with
    | .ok st2 => st2
    | .error _ => st
  | .closeP pid => closePosition st pid

/-- Apply a sequence of calls. -/
def applySeq (cfg : TradingConfig) (st : List Position) (ops : List Op) :
    List Position :=
  ops.foldl (applyOp cfg) st

/-- The claimed invariant: open positions are within both configured bounds. -/
def Inv (cfg : TradingConfig) (st : List Position) : Prop :=
  (getOpenPositions st).length ≤ cfg.maxConcurrentPositions ∧
  sumSol (getOpenPositions st) ≤ cfg.maxPositionSizeSol

/-- The invariant strengthened with nonnegativity of each open spend. -/
def InvNN (cfg : TradingConfig) (st : List Position) : Prop :=
  Inv cfg st ∧ ∀ p ∈ st, p.status = PositionStatus.«open» → 0 ≤ p.solSpent

/-- An `openPosition` call with nonnegative spend (`closePosition` always). -/
def opNonneg : Op → Prop
  | .openP _ _ sol => 0 ≤ sol
  | .closeP _ => True

end PositionMgr

namespace PositionMgr

theorem close_open_sublist (st : List Position) (pid : ℕ) :
    List.Sublist (getOpenPositions (closePosition st pid))
      (getOpenPositions st) := by
  induction st with
  | nil => exact List.Sublist.refl _
  | cons p st ih =>
    simp only [closePosition, List.map_cons, getOpenPositions,
      List.filter_cons] at ih ⊢
    by_cases hid : p.id = pid
    · rw [if_pos hid]
      have h1 : isOpen { p with status := PositionStatus.closed } = false := rfl
      rw [h1]
      simp only [Bool.false_eq_true, if_false]
      by_cases hop : isOpen p
      · rw [if_pos hop]
        exact ih.trans (List.sublist_cons_self p _)
      · rw [if_neg hop]
        exact ih
    · rw [if_neg hid]
      by_cases hop : isOpen p
      · rw [if_pos hop, if_pos hop]
        exact List.Sublist.cons₂ p ih
      · rw [if_neg hop, if_neg hop]
        exact ih

theorem sumSol_le_of_sublist {l1 l2 : List Position}
    (h : List.Sublist l1 l2) (hnn : ∀ p ∈ l2, 0 ≤ p.solSpent) :
    sumSol l1 ≤ sumSol l2 := by
  refine List.Sublist.sum_le_sum (List.Sublist.map Position.solSpent h) ?_
  intro a ha
  obtain ⟨p, hp, rfl⟩ := List.mem_map.mp ha
  exact hnn p hp

theorem applyOp_preserves (cfg : TradingConfig) (st : List Position) (op : Op)
    (h : InvNN cfg st) (hop : opNonneg op) : InvNN cfg (applyOp cfg st op) := by
  obtain ⟨⟨hlen, hsum⟩, hnn⟩ := h
  cases op with
  | openP id mint sol =>
    simp only [applyOp]
    cases hres : openPosition cfg st id mint sol with
    | error msg => exact ⟨⟨hlen, hsum⟩, hnn⟩
    | ok st2 =>
      simp only [openPosition] at hres
      split at hres
      · exact absurd hres (by simp)
      · split at hres
        · exact absurd hres (by simp)
        · rename_i hlen2 hsum2
          have hst2 : st2 = st ++ [newOpenPosition id mint sol] := by
            injection hres with h2
            exact h2.symm
          subst hst2
          have hopen : getOpenPositions (st ++ [newOpenPosition id mint sol]) =
              getOpenPositions st ++ [newOpenPosition id mint sol] := by
            simp [getOpenPositions, List.filter_append, newOpenPosition, isOpen]
          refine ⟨⟨?_, ?_⟩, ?_⟩
          · rw [hopen]
            simp only [List.length_append, List.length_cons, List.length_nil]
            omega
          · rw [hopen]
            simp only [sumSol, List.map_append, List.sum_append, List.map_cons,
              List.map_nil, List.sum_cons, List.sum_nil]
            push_neg at hsum2
            simpa [sumSol, newOpenPosition] using hsum2
          · intro p hp hps
            rcases List.mem_append.mp hp with hmem | hmem
            · exact hnn p hmem hps
            · simp only [List.mem_singleton] at hmem
              subst hmem
              exact hop
  | closeP pid =>
    simp only [applyOp]
    have hsub := close_open_sublist st pid
    refine ⟨⟨?_, ?_⟩, ?_⟩
    · exact le_trans (List.Sublist.length_le hsub) hlen
    · refine le_trans (sumSol_le_of_sublist hsub ?_) hsum
      intro p hp
      exact hnn p (List.mem_of_mem_filter hp)
        (by simpa [isOpen] using List.of_mem_filter hp)
    · intro p hp hps
      obtain ⟨q, hq, hfq⟩ := List.mem_map.mp hp
      by_cases hid : q.id = pid
      · rw [if_pos hid] at hfq
        rw [← hfq] at hps
        exact absurd hps (by simp)
      · rw [if_neg hid] at hfq
        subst hfq
        exact hnn q hq hps

theorem applySeq_preserves (cfg : TradingConfig) (ops : List Op)
    (st : List Position) (h : InvNN cfg st)
    (hops : ∀ op ∈ ops, opNonneg op) : InvNN cfg (applySeq cfg st ops) := by
  induction ops generalizing st with
  | nil => exact h
  | cons op ops ih =>
    exact ih (applyOp cfg st op)
      (applyOp_preserves cfg st op h (hops op (List.mem_cons_self _ _)))
      (fun o ho => hops o (List.mem_cons_of_mem _ ho))

theorem openPosition_error_iff (cfg : TradingConfig) (st : List Position)
    (id mint : ℕ) (sol : ℚ) :
    (∃ msg, openPosition cfg st id mint sol = Except.error msg) ↔
      (cfg.maxConcurrentPositions < (getOpenPositions st).length + 1 ∨
        cfg.maxPositionSizeSol < sumSol (getOpenPositions st) + sol) := by
  simp only [openPosition]
  by_cases h1 : cfg.maxConcurrentPositions ≤ (getOpenPositions st).length
  · simp only [if_pos h1]
    exact ⟨fun _ => Or.inl (by omega), fun _ => ⟨_, rfl⟩⟩
  · simp only [if_neg h1]
    by_cases h2 : cfg.maxPositionSizeSol < sumSol (getOpenPositions st) + sol
    · simp only [if_pos h2]
      exact ⟨fun _ => Or.inr h2, fun _ => ⟨_, rfl⟩⟩
    · simp only [if_neg h2]
      constructor
      · rintro ⟨msg, hmsg⟩
        exact absurd hmsg (by simp)
      · rintro (hc | hc)
        · omega
        · exact absurd hc h2

end PositionMgr

/-- **C2 (counterexample).** The claimed invariant is not preserved by every
call sequence: `openPosition` accepts a negative `solSpent` (nothing validates
the sign), and closing such a position raises the open-position SOL sum above
`max_position_size_sol`. With caps (5 positions, 1 SOL): open id 1 with
−5 SOL (admitted), open id 2 with 6 SOL (admitted, sum 1 ≤ 1), close id 1 —
now the open sum is 6 > 1. -/
theorem positionManager_invariant_counterexample :
    ¬ PositionMgr.Inv ⟨5, 1⟩
      (PositionMgr.applySeq ⟨5, 1⟩ []
        [PositionMgr.Op.openP 1 10 (-5), PositionMgr.Op.openP 2 11 6,
          PositionMgr.Op.closeP 1]) := by
  have hstate : PositionMgr.applySeq ⟨5, 1⟩ []
      [PositionMgr.Op.openP 1 10 (-5), PositionMgr.Op.openP 2 11 6,
        PositionMgr.Op.closeP 1] =
      [⟨1, 10, -5, PositionMgr.PositionStatus.closed⟩,
        ⟨2, 11, 6, PositionMgr.PositionStatus.«open»⟩] := by
    norm_num [PositionMgr.applySeq, PositionMgr.applyOp,
      PositionMgr.openPosition, PositionMgr.closePosition,
      PositionMgr.getOpenPositions, PositionMgr.sumSol, PositionMgr.isOpen,
      PositionMgr.newOpenPosition, List.filter_cons, List.filter_nil]
  intro h
  obtain ⟨-, hsum⟩ := h
  rw [hstate] at hsum
  have hne : PositionMgr.PositionStatus.closed ≠ PositionMgr.PositionStatus.«open» := by
    decide
  norm_num [PositionMgr.getOpenPositions, PositionMgr.sumSol,
    PositionMgr.isOpen, List.filter_cons, List.filter_nil, hne] at hsum

/-- **C2 (amended).** Provided every `openPosition` call passes a nonnegative
`solSpent` (as every call site does — the argument is actual SOL spent on a
buy), every sequence of `openPosition` and `closePosition` calls preserves the
invariant that open positions number at most `max_concurrent_positions`, that
their `solSpent` values sum to at most `max_position_size_sol`, and that each
open position's `solSpent` is nonnegative; moreover `openPosition` throws
exactly when admission would violate either bound, and a throw leaves the
position map unchanged. -/
theorem positionManager_bounds (cfg : PositionMgr.TradingConfig)
    (st : List PositionMgr.Position) (ops : List PositionMgr.Op)
    (hinv : PositionMgr.InvNN cfg st)
    (hops : ∀ op ∈ ops, PositionMgr.opNonneg op) :
    PositionMgr.InvNN cfg (PositionMgr.applySeq cfg st ops) ∧
    (∀ id mint sol,
      (∃ msg, PositionMgr.openPosition cfg st id mint sol = Except.error msg) ↔
        (cfg.maxConcurrentPositions <
            (PositionMgr.getOpenPositions st).length + 1 ∨
          cfg.maxPositionSizeSol <
            PositionMgr.sumSol (PositionMgr.getOpenPositions st) + sol)) ∧
    (∀ id mint sol msg,
      PositionMgr.openPosition cfg st id mint sol = Except.error msg →
        PositionMgr.applyOp cfg st (PositionMgr.Op.openP id mint sol) = st) := by
  refine ⟨PositionMgr.applySeq_preserves cfg ops st hinv hops,
    fun id mint sol => PositionMgr.openPosition_error_iff cfg st id mint sol,
    fun id mint sol msg hmsg => ?_⟩
  simp [PositionMgr.applyOp, hmsg]

/-- Witness for **C2 (amended)** at a concrete input: caps (2 positions,
10 SOL), one admitted open of 1 SOL from the empty map. -/
theorem positionManager_bounds_witness :
    PositionMgr.InvNN ⟨2, 10⟩
      (PositionMgr.applySeq ⟨2, 10⟩ [] [PositionMgr.Op.openP 1 5 1]) := by
  have h := positionManager_bounds ⟨2, 10⟩ [] [PositionMgr.Op.openP 1 5 1]
    ⟨⟨by simp [PositionMgr.getOpenPositions],
      by norm_num [PositionMgr.getOpenPositions, PositionMgr.sumSol]⟩,
      by simp⟩
    (by intro op hop
        simp only [List.mem_singleton] at hop
        subst hop
        norm_num [PositionMgr.opNonneg])
  exact h.1

namespace PositionMgr

/-- Embedding of `PositionManager.getPositionByMint` (`src/unnamed/part_007`,
lines 529-533): the first position whose status is `open` and whose mint
matches. -/
def getPositionByMint (st : List Position) (mint : ℕ) : Option Position :=
  st.find? (fun p => isOpen p && p.mint == mint)

/-- The already-have-position guard of `SniperBot.handleNewPool`
(`src/unnamed/part_003`, lines 168-183): the pool event proceeds to security
analysis exactly when `getPositionByMint` finds nothing. -/
def handleNewPoolProceeds (st : List Position) (mint : ℕ) : Bool :=
  (getPositionByMint st mint).isNone

end PositionMgr

/-- **C10.** `getPositionByMint` returns a position only if it has status
`open` and the requested mint; when every position for the mint is `closing`
or `closed` it returns nothing, so `handleNewPool` does not skip the event
and it proceeds to analysis (and a possible repeat buy). -/
theorem getPositionByMint_open_only (st : List PositionMgr.Position)
    (mint : ℕ) :
    (∀ p, PositionMgr.getPositionByMint st mint = some p →
      p.status = PositionMgr.PositionStatus.«open» ∧ p.mint = mint) ∧
    ((∀ p ∈ st, p.mint = mint →
        p.status = PositionMgr.PositionStatus.closing ∨
        p.status = PositionMgr.PositionStatus.closed) →
      PositionMgr.getPositionByMint st mint = none ∧
      PositionMgr.handleNewPoolProceeds st mint = true) := by
  constructor
  · intro p hp
    have h := List.find?_some hp
    simp only [Bool.and_eq_true, beq_iff_eq, PositionMgr.isOpen] at h
    exact ⟨h.1, h.2⟩
  · intro hall
    have hnone : PositionMgr.getPositionByMint st mint = none := by
      rw [PositionMgr.getPositionByMint, List.find?_eq_none]
      intro p hp
      simp only [Bool.and_eq_true, beq_iff_eq, PositionMgr.isOpen, not_and]
      intro hopen hmint
      rcases hall p hp hmint with hc | hc <;>
        simp [hc] at hopen
    exact ⟨hnone, by simp [PositionMgr.handleNewPoolProceeds, hnone]⟩

/-- Witness for **C10** at a concrete input: a single position for mint 7 in
status `closing` is not returned, and the new-pool event for mint 7 proceeds. -/
theorem getPositionByMint_open_only_witness :
    PositionMgr.getPositionByMint
      [⟨1, 7, 1, PositionMgr.PositionStatus.closing⟩] 7 = none ∧
    PositionMgr.handleNewPoolProceeds
      [⟨1, 7, 1, PositionMgr.PositionStatus.closing⟩] 7 = true := by
  refine (getPositionByMint_open_only
    [⟨1, 7, 1, PositionMgr.PositionStatus.closing⟩] 7).2 ?_
  intro p hp hm
  simp only [List.mem_singleton] at hp
  subst hp
  exact Or.inl rfl

namespace Monitor

/-- Embedding of `MonitorCoordinator.handleTransactionUpdate`'s dedup and
cleanup (`src/monitor/index.ts`, lines 224-234): an already-seen signature
returns early (no parse, no emit — the `Bool` is false); a new one is added,
and when the set then holds more than 10000 entries only the most recent
5000 are kept (`Array.from(set).slice(-5000)`; JS `Set` iterates in insertion
order, embedded as a list; signatures are opaque tokens). -/
def handleTransactionUpdate {σ : Type} [DecidableEq σ] (seen : List σ)
    (sig : σ) : List σ × Bool :=
  if sig ∈ seen then (seen, false)
  else
    let s1 := seen ++ [sig]
    let s2 := if 10000 < s1.length then s1.drop (s1.length - 5000) else s1
    (s2, true)

/-- Embedding of `MonitorCoordinator.handleWebSocketLogs`' dedup
(`src/monitor/index.ts`, lines 400-431): an already-seen signature returns
early; a new one is added with no size cleanup whatsoever. -/
def handleWebSocketLogs {σ : Type} [DecidableEq σ] (seen : List σ)
    (sig : σ) : List σ × Bool :=
  if sig ∈ seen then (seen, false) else (seen ++ [sig], true)

end Monitor

/-- **C4 (counterexample).** The seen-signature set is not trimmed on the
WebSocket path: from a set of 10001 signatures, a fresh WebSocket log grows
it to 10002 — the size exceeds 10000 yet all entries are retained, not the
most recent 5000. -/
theorem monitor_set_bound_counterexample :
    (Monitor.handleWebSocketLogs (List.range 10001) 20000).1.length = 10002 ∧
    10000 < (Monitor.handleWebSocketLogs (List.range 10001) 20000).1.length ∧
    (Monitor.handleWebSocketLogs (List.range 10001) 20000).1.length ≠ 5000 := by
  have hnot : (20000 : ℕ) ∉ List.range 10001 := by simp
  simp [Monitor.handleWebSocketLogs, hnot]

/-- **C4 (amended).** A signature already in the seen set is never processed
again on either path (no re-parse, no fetch, no second pool event, set
unchanged); on the gRPC transaction path, whenever adding a new signature
makes the set exceed 10000 entries only the most recent 5000 are retained;
the WebSocket logs path only appends, so the bound is enforced solely by the
gRPC path. -/
theorem monitor_dedup_and_trim {σ : Type} [DecidableEq σ] (seen : List σ)
    (sig : σ) :
    (sig ∈ seen →
      Monitor.handleTransactionUpdate seen sig = (seen, false) ∧
      Monitor.handleWebSocketLogs seen sig = (seen, false)) ∧
    (sig ∉ seen → 10000 < seen.length + 1 →
      (Monitor.handleTransactionUpdate seen sig).1.length = 5000 ∧
      List.IsSuffix (Monitor.handleTransactionUpdate seen sig).1
        (seen ++ [sig]) ∧
      (Monitor.handleTransactionUpdate seen sig).2 = true) ∧
    (sig ∉ seen →
      (Monitor.handleWebSocketLogs seen sig).1 = seen ++ [sig]) := by
  refine ⟨fun hmem => ?_, fun hmem hlen => ?_, fun hmem => ?_⟩
  · simp [Monitor.handleTransactionUpdate, Monitor.handleWebSocketLogs, hmem]
  · have hlen2 : 10000 < (seen ++ [sig]).length := by
      simp only [List.length_append, List.length_cons, List.length_nil]
      omega
    simp only [Monitor.handleTransactionUpdate, if_neg hmem, if_pos hlen2]
    refine ⟨?_, List.drop_suffix _ _, trivial⟩
    simp only [List.length_drop, List.length_append, List.length_cons,
      List.length_nil]
    omega
  · simp [Monitor.handleWebSocketLogs, hmem]

/-- Witness for **C4 (amended)** at concrete inputs: a duplicate signature is
dropped without processing, and the 10001st new gRPC signature trims the set
to 5000 entries. -/
theorem monitor_dedup_and_trim_witness :
    Monitor.handleTransactionUpdate [5] 5 = ([5], false) ∧
    (Monitor.handleTransactionUpdate (List.range 10000) 10000).1.length =
      5000 := by
  refine ⟨((monitor_dedup_and_trim [5] 5).1 (by simp)).1, ?_⟩
  exact ((monitor_dedup_and_trim (List.range 10000) 10000).2.1
    (by simp)
    (by rw [List.length_range]; omega)).1

namespace Pumpfun

/-- Pump.fun bonding-curve state (`src/monitor/types.ts`, lines 236-243);
`BigInt` reserves are embedded as `ℕ` (the `tokenTotalSupply` and `complete`
fields no claim depends on are elided). -/
structure PumpfunBondingCurveState where
  virtualTokenReserves : ℕ
  virtualSolReserves : ℕ
  realTokenReserves : ℕ
  realSolReserves : ℕ
deriving Repr, DecidableEq

/-- `PUMPFUN_CONSTANTS.FEE_BPS` (`src/config/constants.ts`, line 175): 1%. -/
def FEE_BPS : ℕ := 100

/-- Embedding of `calculatePumpfunBuyOutput`
(`src/monitor/parsers/raydium.ts`, lines 416-430); `BigInt` division on
nonnegative operands is `ℕ` truncating division. -/
def calculatePumpfunBuyOutput (state : PumpfunBondingCurveState)
    (solAmount : ℕ) : ℕ :=
  let feeAmount := solAmount * FEE_BPS / 10000
  let solAmountAfterFee := solAmount - feeAmount
  let newVirtualSolReserves := state.virtualSolReserves + solAmountAfterFee
  let newVirtualTokenReserves :=
    state.virtualSolReserves * state.virtualTokenReserves /
      newVirtualSolReserves
  state.virtualTokenReserves - newVirtualTokenReserves

/-- The bonding-curve state after the buy: the updated virtual reserves as
computed inside `calculatePumpfunBuyOutput`
(`src/monitor/parsers/raydium.ts`, lines 421-428). -/
def postBuyState (state : PumpfunBondingCurveState) (solAmount : ℕ) :
    PumpfunBondingCurveState :=
  let feeAmount := solAmount * FEE_BPS / 10000
  let solAmountAfterFee := solAmount - feeAmount
  let newVirtualSolReserves := state.virtualSolReserves + solAmountAfterFee
  let newVirtualTokenReserves :=
    state.virtualSolReserves * state.virtualTokenReserves /
      newVirtualSolReserves
  { state with
      virtualSolReserves := newVirtualSolReserves
      virtualTokenReserves := newVirtualTokenReserves }

/-- Embedding of `calculatePumpfunSellOutput`
(`src/monitor/parsers/raydium.ts`, lines 433-445). -/
def calculatePumpfunSellOutput (state : PumpfunBondingCurveState)
    (tokenAmount : ℕ) : ℕ :=
  let newVirtualTokenReserves := state.virtualTokenReserves + tokenAmount
  let newVirtualSolReserves :=
    state.virtualSolReserves * state.virtualTokenReserves /
      newVirtualTokenReserves
  let solOutput := state.virtualSolReserves - newVirtualSolReserves
  let feeAmount := solOutput * FEE_BPS / 10000
  solOutput - feeAmount

/-- Buy with `x` lamports, then sell every token received back against the
post-buy state. -/
def roundTrip (state : PumpfunBondingCurveState) (x : ℕ) : ℕ :=
  calculatePumpfunSellOutput (postBuyState state x)
    (calculatePumpfunBuyOutput state x)

end Pumpfun

/-- **C3 (counterexample).** The round trip can return more SOL than was put
in: with positive virtual reserves (1000 token units, 100 lamports) and an
input of 1 lamport, the buy fee truncates to 0 and the truncating
constant-product divisions pay out 2 lamports on the sell — more than the
1 lamport spent, despite the fee being charged on both legs. -/
theorem pumpfun_round_trip_counterexample :
    Pumpfun.roundTrip ⟨1000, 100, 0, 0⟩ 1 = 2 ∧
    ¬(Pumpfun.roundTrip ⟨1000, 100, 0, 0⟩ 1 ≤ 1) := by
  decide

/-- **C3 (amended).** For every bonding-curve state with positive virtual
reserves and every SOL input `x`, the buy-then-sell round trip returns at
most `x + ⌊(virtualSolReserves + x) / virtualTokenReserves⌋ + 1` lamports:
the integer truncation of the two constant-product divisions can pay out up
to one lamport plus one part in `virtualTokenReserves` above the input, but
no more (for realistic reserves, token reserves far exceed SOL reserves and
the slack term is zero). -/
theorem pumpfun_round_trip_bound (state : Pumpfun.PumpfunBondingCurveState)
    (x : ℕ) (hvS : 0 < state.virtualSolReserves)
    (hvT : 0 < state.virtualTokenReserves) :
    Pumpfun.roundTrip state x ≤
      x + (state.virtualSolReserves + x) / state.virtualTokenReserves + 1 := by
  obtain ⟨vT, vS, rT, rS⟩ := state
  simp only at hvS hvT
  simp only [Pumpfun.roundTrip, Pumpfun.calculatePumpfunBuyOutput,
    Pumpfun.postBuyState, Pumpfun.calculatePumpfunSellOutput, Pumpfun.FEE_BPS]
  set fee := x * 100 / 10000 with hfee
  set xa := x - fee with hxa
  set nVS := vS + xa with hnVS
  have hnVSpos : 0 < nVS := by omega
  set q1 := vS * vT / nVS with hq1
  have hq1le : q1 ≤ vT := by
    rw [hq1]
    calc vS * vT / nVS ≤ nVS * vT / nVS := by
          apply Nat.div_le_div_right
          exact Nat.mul_le_mul_right vT (by omega)
      _ = vT := Nat.mul_div_cancel_left vT hnVSpos
  have htVT : q1 + (vT - q1) = vT := by omega
  rw [htVT]
  set q2 := nVS * q1 / vT with hq2
  set q3 := nVS / vT with hq3
  have e1 : nVS * q1 + vS * vT % nVS = vS * vT := by
    rw [hq1]; exact Nat.div_add_mod (vS * vT) nVS
  have e1m : vS * vT % nVS < nVS := Nat.mod_lt _ hnVSpos
  have e2 : vT * q2 + nVS * q1 % vT = nVS * q1 := by
    rw [hq2]; exact Nat.div_add_mod (nVS * q1) vT
  have e2m : nVS * q1 % vT < vT := Nat.mod_lt _ hvT
  have e3 : vT * q3 + nVS % vT = nVS := by
    rw [hq3]; exact Nat.div_add_mod nVS vT
  have e3m : nVS % vT < vT := Nat.mod_lt _ hvT
  have hdist : nVS * vT = vS * vT + xa * vT := by rw [hnVS]; ring
  have h1 : vS * vT + 1 ≤ nVS * q1 + nVS := by omega
  have h2 : nVS * q1 + 1 ≤ vT * q2 + vT := by omega
  have h3 : nVS + 1 ≤ vT * q3 + vT := by omega
  have hmul : (nVS - q2) * vT < (xa + q3 + 2) * vT := by
    have hsub : (nVS - q2) * vT = nVS * vT - q2 * vT := Nat.sub_mul _ _ _
    have hexp : (xa + q3 + 2) * vT = xa * vT + q3 * vT + 2 * vT := by ring
    have hcq2 : q2 * vT = vT * q2 := Nat.mul_comm _ _
    have hcq3 : q3 * vT = vT * q3 := Nat.mul_comm _ _
    rw [hsub, hexp, hcq2, hcq3, hdist]
    omega
  have hlt : nVS - q2 < xa + q3 + 2 := Nat.lt_of_mul_lt_mul_right hmul
  have hq3le : q3 ≤ (vS + x) / vT := by
    rw [hq3]
    exact Nat.div_le_div_right (by omega)
  have hdrop : nVS - q2 - (nVS - q2) * 100 / 10000 ≤ nVS - q2 :=
    Nat.sub_le _ _
  omega

/-- Witness for **C3 (amended)** at the counterexample's input, where the
bound is tight: the round trip pays 2 and the bound is
`1 + ⌊101/1000⌋ + 1 = 2`. -/
theorem pumpfun_round_trip_bound_witness :
    Pumpfun.roundTrip ⟨1000, 100, 0, 0⟩ 1 ≤
      1 + ((⟨1000, 100, 0, 0⟩ : Pumpfun.PumpfunBondingCurveState).virtualSolReserves + 1) /
        (⟨1000, 100, 0, 0⟩ : Pumpfun.PumpfunBondingCurveState).virtualTokenReserves + 1 :=
  pumpfun_round_trip_bound ⟨1000, 100, 0, 0⟩ 1 (by decide) (by decide)

namespace RateLtr

/-- A waiter on `RateLimiter.acquire` (`src/utils/rpc.ts`, line 12): its
`resolve` callback is identified by an arrival sequence number, with the
priority passed to `acquire`. -/
structure Waiter where
  arrival : ℕ
  priority : ℤ
deriving Repr, DecidableEq

/-- Embedding of one `acquire` enqueue (`src/utils/rpc.ts`, lines 29-36):
push then `queue.sort((a, b) => b.priority - a.priority)`. JavaScript's
`Array.prototype.sort` is stable (ES2019), so on the already-sorted queue
this inserts the new waiter after every entry of priority ≥ its own and
before the first entry of strictly smaller priority. -/
def enqueue (q : List Waiter) (w : Waiter) : List Waiter :=
  match q with
  | [] => [w]
  | x :: xs => if x.priority < w.priority then w :: x :: xs else x :: enqueue xs w

/-- The queue built by a batch of concurrent `acquire` callers in call
order; `processQueue` (lines 42-54) wakes waiters by `queue.shift()`, so the
release order is exactly this queue's order. -/
def releaseOrder (ws : List Waiter) : List Waiter := ws.foldl enqueue []

/-- Release-order relation: earlier-released waiters never have lower
priority, and at equal priority they arrived earlier (FIFO in a band). -/
def ReleasesBefore (a b : Waiter) : Prop :=
  b.priority ≤ a.priority ∧ (a.priority = b.priority → a.arrival < b.arrival)

instance : DecidablePred fun p : Waiter × Waiter => ReleasesBefore p.1 p.2 :=
  fun p => by unfold ReleasesBefore; infer_instance

theorem enqueue_perm (q : List Waiter) (w : Waiter) :
    List.Perm (enqueue q w) (w :: q) := by
  induction q with
  | nil => exact List.Perm.refl _
  | cons x xs ih =>
    simp only [enqueue]
    by_cases h : x.priority < w.priority
    · rw [if_pos h]
    · rw [if_neg h]
      exact (ih.cons x).trans (List.Perm.swap w x xs)

theorem enqueue_pairwise (q : List Waiter) (w : Waiter)
    (hq : q.Pairwise ReleasesBefore)
    (harr : ∀ x ∈ q, x.arrival < w.arrival) :
    (enqueue q w).Pairwise ReleasesBefore := by
  induction q with
  | nil => simp [enqueue]
  | cons x xs ih =>
    obtain ⟨hx, hxs⟩ := List.pairwise_cons.mp hq
    simp only [enqueue]
    by_cases h : x.priority < w.priority
    · rw [if_pos h]
      refine List.pairwise_cons.mpr ⟨?_, hq⟩
      intro y hy
      rcases List.mem_cons.mp hy with rfl | hy2
      · exact ⟨le_of_lt h, fun he => absurd he.symm (ne_of_lt h)⟩
      · have := hx y hy2
        exact ⟨le_trans this.1 (le_of_lt h),
          fun he => absurd (lt_of_le_of_lt (he ▸ this.1) h) (lt_irrefl _)⟩
    · rw [if_neg h]
      refine List.pairwise_cons.mpr ⟨?_, ih hxs
        (fun y hy => harr y (List.mem_cons_of_mem _ hy))⟩
      intro y hy
      have hy2 : y ∈ w :: xs := (enqueue_perm xs w).mem_iff.mp hy
      rcases List.mem_cons.mp hy2 with rfl | hy3
      · exact ⟨le_of_not_lt h, fun _ => harr x (List.mem_cons_self _ _)⟩
      · exact hx y hy3

theorem foldl_enqueue_perm (ws acc : List Waiter) :
    List.Perm (ws.foldl enqueue acc) (acc ++ ws) := by
  induction ws generalizing acc with
  | nil => simp
  | cons w ws ih =>
    simp only [List.foldl_cons]
    refine (ih (enqueue acc w)).trans ?_
    refine (List.Perm.append_right ws ((enqueue_perm acc w))).trans ?_
    exact (List.perm_middle).symm

theorem foldl_enqueue_pairwise (ws acc : List Waiter)
    (hacc : acc.Pairwise ReleasesBefore)
    (hsep : ∀ x ∈ acc, ∀ w ∈ ws, x.arrival < w.arrival)
    (hws : ws.Pairwise fun a b => a.arrival < b.arrival) :
    (ws.foldl enqueue acc).Pairwise ReleasesBefore := by
  induction ws generalizing acc with
  | nil => exact hacc
  | cons w ws ih =>
    obtain ⟨hw, hws2⟩ := List.pairwise_cons.mp hws
    simp only [List.foldl_cons]
    refine ih (enqueue acc w)
      (enqueue_pairwise acc w hacc
        (fun x hx => hsep x hx w (List.mem_cons_self _ _)))
      ?_ hws2
    intro x hx u hu
    rcases List.mem_cons.mp ((enqueue_perm acc w).mem_iff.mp hx) with rfl | hx2
    · exact hw u hu
    · exact hsep x hx2 u (List.mem_cons_of_mem _ hu)

end RateLtr

/-- **C6.** For a batch of concurrent `acquire` callers with distinct,
increasing arrival order, the token-bucket limiter releases every waiter
(the release order is a permutation of the callers), higher-priority waiters
wake before all lower-priority ones, and equal-priority waiters wake in
arrival (FIFO) order. -/
theorem rateLimiter_priority_fifo (ws : List RateLtr.Waiter)
    (harr : ws.Pairwise fun a b => a.arrival < b.arrival) :
    List.Perm (RateLtr.releaseOrder ws) ws ∧
    (RateLtr.releaseOrder ws).Pairwise RateLtr.ReleasesBefore := by
  constructor
  · simpa using RateLtr.foldl_enqueue_perm ws []
  · exact RateLtr.foldl_enqueue_pairwise ws [] (by simp) (by simp) harr

/-- Witness for **C6** at a concrete batch: priorities 1, 5, 5, 0 arriving in
that order wake as 5 (arrival 1), 5 (arrival 2), 1, 0. -/
theorem rateLimiter_priority_fifo_witness :
    List.Perm (RateLtr.releaseOrder [⟨0, 1⟩, ⟨1, 5⟩, ⟨2, 5⟩, ⟨3, 0⟩])
      [⟨0, 1⟩, ⟨1, 5⟩, ⟨2, 5⟩, ⟨3, 0⟩] ∧
    (RateLtr.releaseOrder
      [⟨0, 1⟩, ⟨1, 5⟩, ⟨2, 5⟩, ⟨3, 0⟩]).Pairwise RateLtr.ReleasesBefore :=
  rateLimiter_priority_fifo [⟨0, 1⟩, ⟨1, 5⟩, ⟨2, 5⟩, ⟨3, 0⟩]
    (by norm_num)

namespace RateLtr

/-- Token-bucket state of `RateLimiter` (`src/utils/rpc.ts`, lines 7-20). -/
structure RateLimiterState where
  maxTokens : ℚ
  tokens : ℚ
  refillRate : ℚ
deriving Repr

/-- Embedding of the `RateLimiter` constructor (`src/utils/rpc.ts`, lines
15-20): it declares a single parameter and sets
`maxTokens = tokens = refillRate = requestsPerSecond`. The call sites in
`RpcProviderManager.initializeProviders` (`src/unnamed/part_009`, lines 139,
157 and 175) pass a second burst argument — `new RateLimiter(rps, 2)`,
commented "Max burst of 2 to prevent 429s" — which JavaScript silently
discards because the constructor declares no such parameter. -/
def mkRateLimiter (requestsPerSecond : ℚ) : RateLimiterState :=
  { maxTokens := requestsPerSecond
    tokens := requestsPerSecond
    refillRate := requestsPerSecond }

/-- One `acquire` completing without waiting: `processQueue`
(`src/utils/rpc.ts`, lines 45-48) hands out a token exactly when at least one
full token is available, with no refill time elapsed. -/
def tryAcquireNow (rl : RateLimiterState) : Option RateLimiterState :=
  if 1 ≤ rl.tokens then some { rl with tokens := rl.tokens - 1 } else none

end RateLtr

/-- **C7 (code evaluated at the failing input).** A provider limiter built
with `requestsPerSecond = 10` (the shyft/helius configured rate) has burst
capacity 10, not at most 2: the second constructor argument `2` is dropped,
`maxTokens` equals the rate, and three (indeed up to ten) `acquire` calls
complete from a full bucket without any refill wait. -/
theorem rateLimiter_burst_exceeds_two :
    (RateLtr.mkRateLimiter 10).maxTokens = 10 ∧
    ((RateLtr.tryAcquireNow (RateLtr.mkRateLimiter 10)).bind
      (fun rl => (RateLtr.tryAcquireNow rl).bind
        RateLtr.tryAcquireNow)).isSome = true := by
  refine ⟨rfl, ?_⟩
  norm_num [RateLtr.tryAcquireNow, RateLtr.mkRateLimiter, Option.bind]

namespace RpcProv

/-- RPC provider names (`src/unnamed/part_009`, line 17). -/
inductive ProviderName
  | helius
  | shyft
  | solana
deriving Repr, DecidableEq

/-- One configured provider (`RpcProvider`, `src/unnamed/part_009`, lines
22-42); the connection object and stats are elided, the rate limiter is kept
as its constructor argument (the burst argument is dropped, cf.
`RateLtr.mkRateLimiter`). -/
structure Provider where
  name : ProviderName
  url : String
  rps : ℚ
  priority : ℕ
  backup : Bool
  rlRequestsPerSecond : ℚ
  healthy : Bool
  consecutiveFailures : ℕ
deriving Repr, DecidableEq

/-- The slice of `NetworkConfig` that provider initialization reads. -/
structure NetworkConfig where
  shyftRpcUrl : Option String
  shyftRpcRps : ℚ
  shyftPriority : ℕ
  heliusRpcUrl : Option String
  heliusRpcRps : ℚ
  heliusPriority : ℕ
  solanaRpcUrl : Option String
  solanaPriority : ℕ
deriving Repr

/-- Embedding of `RpcProviderManager.initializeProviders`
(`src/unnamed/part_009`, lines 121-188): each provider is added only when its
URL is configured (shyft, then helius, then solana — `Map` insertion order);
no branch throws, an empty config just yields an empty map. -/
def initializeProviders (config : NetworkConfig) : List Provider :=
  (match config.shyftRpcUrl with
    | some url => [⟨.shyft, url, config.shyftRpcRps, config.shyftPriority,
        config.shyftPriority == 3, config.shyftRpcRps, true, 0⟩]
    | none => []) ++
  (match config.heliusRpcUrl with
    | some url => [⟨.helius, url, config.heliusRpcRps, config.heliusPriority,
        config.heliusPriority == 3, config.heliusRpcRps, true, 0⟩]
    | none => []) ++
  (match config.solanaRpcUrl with
    | some url => [⟨.solana, url, 5, config.solanaPriority,
        config.solanaPriority == 3, 5, true, 0⟩]
    | none => [])

/-- Manager state after construction (the cache and options are elided). -/
structure ManagerState where
  providers : List Provider
deriving Repr

/-- Embedding of the `RpcProviderManager` constructor (`src/unnamed/part_009`,
lines 101-116): it stores options, builds the cache, calls
`initializeProviders` and logs. No code path throws, so construction always
succeeds; `Except` models the possibility of a constructor exception. -/
def constructRpcProviderManager (config : NetworkConfig) :
    Except String ManagerState :=
  Except.ok { providers := initializeProviders config }

/-- Stable insertion for the ascending priority sort
(`sort((a, b) => a.priority - b.priority)`, line 685). -/
def insertAsc (xs : List Provider) (p : Provider) : List Provider :=
  match xs with
  | [] => [p]
  | x :: rest =>
    if p.priority < x.priority then p :: x :: rest else x :: insertAsc rest p

/-- Embedding of `getHealthyProvidersByPriority` (`src/unnamed/part_009`,
lines 665-686): healthy providers sorted by ascending priority (the
cooldown-recovery side effect is time-dependent and elided — with an empty
provider map it does nothing). -/
def getHealthyProvidersByPriority (st : ManagerState) : List Provider :=
  (st.providers.filter (fun p => p.healthy)).foldl insertAsc []

/-- Embedding of `selectProvider` (`src/unnamed/part_009`, lines 621-660);
`availableTokens` is the rate limiters' current token snapshot. With no
healthy provider it falls back to the first configured provider, and with no
provider at all it throws `No RPC providers configured`. -/
def selectProvider (availableTokens : Provider → ℚ) (st : ManagerState) :
    Except String Provider :=
  match getHealthyProvidersByPriority st with
  | [] =>
    match st.providers with
    | [] => Except.error "No RPC providers configured"
    | p :: _ => Except.ok p
  | h :: rest =>
    match (h :: rest).filter (fun p => p.priority == h.priority) with
    | [] => Except.ok h
    | [p] => Except.ok p
    | p :: ps =>
      Except.ok (ps.foldl
        (fun best q =>
          if availableTokens best < availableTokens q then q else best) p)

end RpcProv

/-- **C5 (counterexample).** A configuration with no provider URLs yields an
empty provider set, yet the constructor succeeds — no fatal configuration
error is raised at construction time. -/
theorem rpcManager_empty_config_constructs :
    RpcProv.constructRpcProviderManager ⟨none, 0, 1, none, 0, 1, none, 2⟩ =
      Except.ok ⟨[]⟩ ∧
    ¬∃ msg, RpcProv.constructRpcProviderManager
      ⟨none, 0, 1, none, 0, 1, none, 2⟩ = Except.error msg := by
  constructor
  · rfl
  · rintro ⟨msg, hmsg⟩
    exact absurd hmsg (by simp [RpcProv.constructRpcProviderManager])

/-- **C5 (amended).** Constructing the provider manager from a configuration
with no provider URLs succeeds with an empty provider set; the fatal error
`No RPC providers configured` is raised only later, on the first provider
selection (`getConnection` → `selectProvider`). -/
theorem rpcManager_empty_fails_at_selection (config : RpcProv.NetworkConfig)
    (avail : RpcProv.Provider → ℚ)
    (hshyft : config.shyftRpcUrl = none)
    (hhelius : config.heliusRpcUrl = none)
    (hsolana : config.solanaRpcUrl = none) :
    ∃ st, RpcProv.constructRpcProviderManager config = Except.ok st ∧
      st.providers = [] ∧
      RpcProv.selectProvider avail st =
        Except.error "No RPC providers configured" := by
  refine ⟨⟨[]⟩, ?_, rfl, rfl⟩
  simp [RpcProv.constructRpcProviderManager, RpcProv.initializeProviders,
    hshyft, hhelius, hsolana]

/-- Witness for **C5 (amended)** at a concrete empty configuration. -/
theorem rpcManager_empty_fails_at_selection_witness :
    ∃ st, RpcProv.constructRpcProviderManager
        ⟨none, 0, 1, none, 0, 1, none, 2⟩ = Except.ok st ∧
      st.providers = [] ∧
      RpcProv.selectProvider (fun _ => 0) st =
        Except.error "No RPC providers configured" :=
  rpcManager_empty_fails_at_selection ⟨none, 0, 1, none, 0, 1, none, 2⟩
    (fun _ => 0) rfl rfl rfl

namespace Cache

/-- One cache slot (`src/utils/rpc.ts`, line 72): the stored value is
`AccountInfo<Buffer> | null`, embedded as `Option ℕ` over abstract blobs,
with `none` for a null (missing account) result. -/
structure CacheEntry where
  value : Option ℕ
  expires : ℤ
deriving Repr, DecidableEq

/-- `TTLCache` state (`src/utils/rpc.ts`, lines 71-79); the backing JS `Map`
iterates in insertion order, embedded as an association list. -/
structure TTLCache where
  entries : List (String × CacheEntry)
  maxSize : ℕ
  ttlMs : ℤ
deriving Repr

/-- `Map.get`: the entry stored under a key. -/
def findEntry : List (String × CacheEntry) → String → Option CacheEntry
  | [], _ => none
  | e :: rest, key => if e.1 == key then some e.2 else findEntry rest key

/-- `Map.delete key`. -/
def eraseKey (entries : List (String × CacheEntry)) (key : String) :
    List (String × CacheEntry) :=
  entries.filter (fun e => !(e.1 == key))

/-- `Map.set key e`: replace in place when the key is present, else append. -/
def mapSet (entries : List (String × CacheEntry)) (key : String)
    (e : CacheEntry) : List (String × CacheEntry) :=
  if (findEntry entries key).isSome then
    entries.map (fun ent => if ent.1 == key then (key, e) else ent)
  else entries ++ [(key, e)]

/-- Embedding of `TTLCache.get` (`src/utils/rpc.ts`, lines 81-94), with the
current time passed explicitly: a missing key returns `none`; an expired
entry (`now > expires`) is deleted and yields `none`; otherwise the entry is
moved to the end (most recently used) and its value — possibly a cached
null — is returned. -/
def ttlGet (c : TTLCache) (now : ℤ) (key : String) :
    Option (Option ℕ) × TTLCache :=
  match findEntry c.entries key with
  | none => (none, c)
  | some entry =>
    if entry.expires < now then
      (none, { c with entries := eraseKey c.entries key })
    else
      (some entry.value,
        { c with entries := eraseKey c.entries key ++ [(key, entry)] })

/-- The size-cap eviction inside `TTLCache.set` (`src/utils/rpc.ts`, lines
97-101): when at capacity, delete the oldest (first) key. -/
def evictIfFull (c : TTLCache) : List (String × CacheEntry) :=
  if c.maxSize ≤ c.entries.length then
    match c.entries with
    | [] => []
    | _ :: rest => rest
  else c.entries

/-- Embedding of `TTLCache.set` (`src/utils/rpc.ts`, lines 96-107). -/
def ttlSet (c : TTLCache) (now : ℤ) (key : String) (v : Option ℕ) :
    TTLCache :=
  { c with entries := mapSet (evictIfFull c) key ⟨v, now + c.ttlMs⟩ }

/-- Outcome of one `RpcProviderManager.getAccountInfo` call. -/
structure GetAccountResult where
  value : Option ℕ
  rpcCalls : ℕ
  rateTokens : ℕ
  cache : TTLCache

/-- Embedding of `RpcProviderManager.getAccountInfo` (`src/unnamed/part_009`,
lines 229-301) on the paths the claim concerns: a cache hit (`cached !==
undefined`, which includes a cached null) returns the cached value with no
provider request and no rate-limiter token; a miss takes one rate-limiter
token, performs one RPC — whose result, null included, is the `fetch`
oracle — and caches it. Provider failover on errors is elided (the first
healthy provider answers). -/
def getAccountInfo (c : TTLCache) (now : ℤ) (key : String)
    (fetch : Option ℕ) : GetAccountResult :=
  let r := ttlGet c now key
  match r.1 with
  | some v => ⟨v, 0, 0, r.2⟩
  | none => ⟨fetch, 1, 1, ttlSet r.2 now key fetch⟩

theorem findEntry_mapSet (entries : List (String × CacheEntry))
    (key : String) (e : CacheEntry) :
    findEntry (mapSet entries key e) key = some e := by
  unfold mapSet
  by_cases h : (findEntry entries key).isSome
  · rw [if_pos h]
    induction entries with
    | nil => simp [findEntry] at h
    | cons x xs ih =>
      by_cases hx : (x.1 == key) = true
      · simp [findEntry, hx]
      · have hx2 : (x.1 == key) = false := by simpa using hx
        have hmem : (findEntry xs key).isSome = true := by
          simpa [findEntry, hx2] using h
        simpa [findEntry, hx2] using ih hmem
  · rw [if_neg h]
    induction entries with
    | nil => simp [findEntry]
    | cons x xs ih =>
      have hx2 : (x.1 == key) = false := by
        by_contra hx
        have hx3 : (x.1 == key) = true := by simpa using hx
        exact h (by simp [findEntry, hx3])
      have hrest : ¬(findEntry xs key).isSome = true := by
        intro h2
        exact h (by simpa [findEntry, hx2] using h2)
      simpa [findEntry, hx2] using ih hrest

theorem findEntry_ttlSet (c : TTLCache) (now : ℤ) (key : String)
    (v : Option ℕ) :
    findEntry (ttlSet c now key v).entries key =
      some ⟨v, now + c.ttlMs⟩ :=
  findEntry_mapSet (evictIfFull c) key ⟨v, now + c.ttlMs⟩

theorem ttlGet_ttlMs (c : TTLCache) (now : ℤ) (key : String) :
    (ttlGet c now key).2.ttlMs = c.ttlMs := by
  unfold ttlGet
  cases hfe : findEntry c.entries key with
  | none => rfl
  | some e =>
    by_cases h : e.expires < now
    · simp [h]
    · simp [h]

end Cache

/-- **C9.** `getAccountInfo` caches the absence of an account exactly like a
present blob: after a miss whose fetch returns null, every further call for
the same key within the cache TTL returns null from the cache, contacting no
provider and consuming no rate-limit token. -/
theorem getAccountInfo_caches_null (c : Cache.TTLCache) (t1 t2 : ℤ)
    (key : String) (fetch2 : Option ℕ)
    (hmiss : (Cache.ttlGet c t1 key).1 = none)
    (ht : t2 ≤ t1 + c.ttlMs) :
    (Cache.getAccountInfo c t1 key none).value = none ∧
    (Cache.getAccountInfo c t1 key none).rpcCalls = 1 ∧
    (Cache.getAccountInfo
      (Cache.getAccountInfo c t1 key none).cache t2 key fetch2).value =
        none ∧
    (Cache.getAccountInfo
      (Cache.getAccountInfo c t1 key none).cache t2 key fetch2).rpcCalls =
        0 ∧
    (Cache.getAccountInfo
      (Cache.getAccountInfo c t1 key none).cache t2 key fetch2).rateTokens =
        0 := by
  have h1 : Cache.getAccountInfo c t1 key none =
      ⟨none, 1, 1, Cache.ttlSet (Cache.ttlGet c t1 key).2 t1 key none⟩ := by
    simp only [Cache.getAccountInfo, hmiss]
  rw [h1]
  set c2 := (Cache.ttlGet c t1 key).2 with hc2
  have httl : c2.ttlMs = c.ttlMs := Cache.ttlGet_ttlMs c t1 key
  set c3 := Cache.ttlSet c2 t1 key none with hc3
  have hfind : Cache.findEntry c3.entries key =
      some ⟨none, t1 + c2.ttlMs⟩ := by
    rw [hc3]
    exact Cache.findEntry_ttlSet c2 t1 key none
  have hget2 : (Cache.ttlGet c3 t2 key).1 = some none := by
    unfold Cache.ttlGet
    rw [hfind]
    have hexp : ¬((⟨none, t1 + c2.ttlMs⟩ : Cache.CacheEntry).expires < t2) := by
      simp only []
      rw [httl]
      omega
    simp only [if_neg hexp]
  refine ⟨rfl, rfl, ?_, ?_, ?_⟩ <;>
    simp only [Cache.getAccountInfo, hget2]

/-- Witness for **C9** at a concrete input: empty cache of capacity 1000 and
TTL 2000 ms, first call at t=0 fetches null, second call at t=1500 serves
null from the cache with no RPC and no rate token. -/
theorem getAccountInfo_caches_null_witness :
    (Cache.getAccountInfo ⟨[], 1000, 2000⟩ 0 "k" none).value = none ∧
    (Cache.getAccountInfo ⟨[], 1000, 2000⟩ 0 "k" none).rpcCalls = 1 ∧
    (Cache.getAccountInfo
      (Cache.getAccountInfo ⟨[], 1000, 2000⟩ 0 "k" none).cache 1500 "k"
        (some 7)).value = none ∧
    (Cache.getAccountInfo
      (Cache.getAccountInfo ⟨[], 1000, 2000⟩ 0 "k" none).cache 1500 "k"
        (some 7)).rpcCalls = 0 ∧
    (Cache.getAccountInfo
      (Cache.getAccountInfo ⟨[], 1000, 2000⟩ 0 "k" none).cache 1500 "k"
        (some 7)).rateTokens = 0 :=
  getAccountInfo_caches_null ⟨[], 1000, 2000⟩ 0 1500 "k" (some 7) rfl
    (by norm_num)
